import Mathlib

/-!
Verification of the consensus module of `system-design-core`
(`concepts/01-fundamental-concepts/python/consensus_algorithms.py`).

The Python classes `RaftNode`, `PaxosProposer` and `PaxosAcceptor` are embedded
shallowly: object attributes become structure fields, mutating methods become
functions from a state to a result paired with the new state, Python integers
become `Int`, Python lists become `List`, the `match_index` dictionary becomes
an association list, `None`-able attributes become `Option`, and a raised
exception becomes `Except.error`.  Python slice and negative-index semantics
are reproduced by `pyTake` and `pyLogTerm`.
-/

namespace SDC

/-- Log entry in Raft (the `LogEntry` dataclass): term, command, index.
Commands (`Any` in Python) are modelled as integers. -/
structure LogEntry where
  term : Int
  command : Int
  index : Int
deriving DecidableEq

/-- The `self.state` attribute of `RaftNode`: `'follower' | 'candidate' | 'leader'`. -/
inductive RaftRole where
  | follower
  | candidate
  | leader
deriving DecidableEq

/-- Python list slice `l[:k]`: for `k < 0` it counts from the end
(`l[:k] = l[:len(l)+k]`), clamping at the empty list. -/
def pyTake {α : Type} (l : List α) (k : Int) : List α :=
  if 0 ≤ k then l.take k.toNat else l.take ((l.length : Int) + k).toNat

/-- Python `log[i].term` with negative-index wrap-around; `0` when the index is
out of range (the code only evaluates it under a bounds check, and uses `0` as
the explicit empty-log default for last-entry terms). -/
def pyLogTerm (log : List LogEntry) (i : Int) : Int :=
  match log.get? (if i < 0 then (log.length : Int) + i else i).toNat with
  | some e => e.term
  | none => 0

/-- `self.log[-1].term if self.log else 0`. -/
def lastTermOf (log : List LogEntry) : Int :=
  pyLogTerm log (-1)

/-- The mutable attributes of a `RaftNode` that the verified methods touch.
`self.match_index` (a Python dict) is an association list. -/
structure RaftState where
  nodeId : Int
  nodes : List Int
  state : RaftRole
  currentTerm : Int
  votedFor : Option Int
  log : List LogEntry
  commitIndex : Int
  matchIndex : List (Int × Int)
deriving DecidableEq

/-- `RaftNode.__init__`: follower, term 0, no vote, empty log, `commit_index = -1`. -/
def initRaftNode (nodeId : Int) (nodes : List Int) : RaftState :=
  { nodeId := nodeId, nodes := nodes, state := RaftRole.follower, currentTerm := 0,
    votedFor := none, log := [], commitIndex := -1, matchIndex := [] }

/-- Python `self.match_index.get(k, -1)`. -/
def dictGet (d : List (Int × Int)) (k : Int) : Int :=
  match d.find? (fun p => p.1 == k) with
  | some p => p.2
  | none => -1

/-- The term/role/vote adoption performed by `append_entries` when
`term >= self.current_term` (lines 146–150). -/
def adoptTerm (s : RaftState) (t : Int) : RaftState :=
  { s with currentTerm := t, state := RaftRole.follower, votedFor := none }

/-- Lines 159–161: `if entries: self.log = self.log[:prev_log_index + 1]; self.log.extend(entries)`. -/
def postAppendLog (log : List LogEntry) (prev : Int) (entries : List LogEntry) : List LogEntry :=
  if entries.isEmpty then log else pyTake log (prev + 1) ++ entries

/-- Lines 164–165: `if leader_commit > self.commit_index:
self.commit_index = min(leader_commit, len(self.log) - 1)`. -/
def postAppendCommit (c lc len : Int) : Int :=
  if lc > c then min lc (len - 1) else c

/-- `RaftNode.append_entries` (lines 142–169).  Returns the Python return value
paired with the node state after the call. -/
def appendEntries (s : RaftState) (t _lid prev pterm : Int) (entries : List LogEntry)
    (lc : Int) : Bool × RaftState :=
  if t ≥ s.currentTerm then
    if prev ≥ 0 ∧ ((s.log.length : Int) ≤ prev ∨ pyLogTerm s.log prev ≠ pterm) then
      (false, adoptTerm s t)
    else
      (true, { adoptTerm s t with
                log := postAppendLog s.log prev entries,
                commitIndex := postAppendCommit s.commitIndex lc
                  ((postAppendLog s.log prev entries).length : Int) })
  else
    (false, s)

/-- The term adoption performed by `request_vote` when `term > self.current_term`
(lines 92–95). -/
def adoptVote (s : RaftState) (t : Int) : RaftState :=
  if t > s.currentTerm then
    { s with currentTerm := t, votedFor := none, state := RaftRole.follower }
  else s

/-- The up-to-date-log test of `request_vote` (lines 99–101). -/
def upToDateLog (s : RaftState) (lli llt : Int) : Prop :=
  llt > lastTermOf s.log ∨ (llt = lastTermOf s.log ∧ lli ≥ (s.log.length : Int) - 1)

instance (s : RaftState) (lli llt : Int) : Decidable (upToDateLog s lli llt) := by
  unfold upToDateLog; infer_instance

/-- `RaftNode.request_vote` (lines 89–105). -/
def requestVote (s : RaftState) (t cid lli llt : Int) : Bool × RaftState :=
  if t = (adoptVote s t).currentTerm ∧
      ((adoptVote s t).votedFor = none ∨ (adoptVote s t).votedFor = some cid) ∧
      upToDateLog (adoptVote s t) lli llt then
    (true, { adoptVote s t with votedFor := some cid })
  else
    (false, adoptVote s t)

/-- `RaftNode.propose_entry` (lines 171–185): the leader-only guard, the log
append and the returned entry, paired with the node state after the local step.
The subsequent `_replicate_log` call only contacts peers and updates the
leader's `next_index`/`match_index`/`commit_index` bookkeeping; it does not
modify the leader's log, its term, or the entry returned to the client. -/
def proposeEntry (s : RaftState) (command : Int) : Except String LogEntry × RaftState :=
  if s.state ≠ RaftRole.leader then
    (Except.error "Only leader can propose entries", s)
  else
    (Except.ok ⟨s.currentTerm, command, (s.log.length : Int)⟩,
      { s with log := s.log ++ [⟨s.currentTerm, command, (s.log.length : Int)⟩] })

/-- Lines 217–220 of `_update_commit_index`: the leader itself plus every peer
whose `match_index.get(node_id, -1)` is at least `i`. -/
def countReplicated (s : RaftState) (i : Int) : Nat :=
  1 + (s.nodes.filter (fun nid => decide (nid ≠ s.nodeId ∧ dictGet s.matchIndex nid ≥ i))).length

/-- The loop-body condition of `_update_commit_index` (line 222):
`count > len(self.nodes) / 2 and self.log[i].term == self.current_term`
(the first conjunct is exact real division, equivalently `2*count > n`). -/
def commitQualifies (s : RaftState) (i : Int) : Prop :=
  2 * countReplicated s i > s.nodes.length ∧ pyLogTerm s.log i = s.currentTerm

instance commitQualifiesDec (s : RaftState) (i : Int) : Decidable (commitQualifies s i) := by
  unfold commitQualifies; infer_instance

/-- Python `range(a, b)` over integers. -/
def intRange (a b : Int) : List Int :=
  (List.range (b - a).toNat).map (fun (k : Nat) => a + (k : Int))

/-- `RaftNode._update_commit_index` (lines 214–223): scan the indices from
`commit_index + 1` to `len(log) - 1`, setting `commit_index` to each index that
a majority holds and whose entry has the current term. -/
def updateCommitIndex (s : RaftState) : RaftState :=
  { s with commitIndex :=
      ((intRange (s.commitIndex + 1) (s.log.length : Int)).foldl
        (fun c i => if commitQualifies s i then i else c) s.commitIndex) }

/-! ## Paxos -/

/-- The mutable attributes of a `PaxosAcceptor` (`__init__`, lines 278–282
initialises them to `-1`, `-1`, `None`). -/
structure AcceptorState where
  acceptorId : Int
  promisedN : Int
  acceptedN : Int
  acceptedValue : Option Int
deriving DecidableEq

/-- `PaxosAcceptor.__init__`. -/
def initAcceptor (acceptorId : Int) : AcceptorState :=
  { acceptorId := acceptorId, promisedN := -1, acceptedN := -1, acceptedValue := none }

/-- The dictionary returned by `PaxosAcceptor.prepare`: a refusal is
`{'promised': False}` with no accepted fields, so those are `none` there. -/
structure PrepareResp where
  promised : Bool
  acceptedN : Option Int
  acceptedValue : Option Int
deriving DecidableEq

/-- `PaxosAcceptor.prepare` (lines 284–293): grant iff `n > promised_n`,
updating `promised_n`; only a granted response carries the accepted pair. -/
def acceptorPrepare (a : AcceptorState) (n : Int) : PrepareResp × AcceptorState :=
  if n > a.promisedN then
    (⟨true, some a.acceptedN, a.acceptedValue⟩, { a with promisedN := n })
  else
    (⟨false, none, none⟩, a)

/-- `PaxosAcceptor.accept` (lines 295–302). -/
def acceptorAccept (a : AcceptorState) (n value : Int) : Bool × AcceptorState :=
  if n ≥ a.promisedN then
    (true, { a with promisedN := n, acceptedN := n, acceptedValue := some value })
  else
    (false, a)

/-- Acceptor states reachable from `__init__` by `prepare` and `accept` calls. -/
inductive AcceptorReachable : AcceptorState → Prop where
  | init (acceptorId : Int) : AcceptorReachable (initAcceptor acceptorId)
  | prep {a : AcceptorState} (n : Int) (h : AcceptorReachable a) :
      AcceptorReachable (acceptorPrepare a n).2
  | acc {a : AcceptorState} (n value : Int) (h : AcceptorReachable a) :
      AcceptorReachable (acceptorAccept a n value).2

/-- The mutable attributes of a `PaxosProposer` (lines 233–236). -/
structure ProposerState where
  proposerId : Int
  proposalNumber : Int
deriving DecidableEq

/-- The dictionary returned on success by `PaxosProposer.accept` (line 270). -/
structure PaxosResult where
  chosen : Bool
  value : Int
  proposalNumber : Int
deriving DecidableEq

/-- Python truthiness of an optional integer: `None` and `0` are falsy. -/
def pyTruthy : Option Int → Bool
  | none => false
  | some v => v != 0

/-- The Phase-1 fan-out (line 243): `acceptor.prepare(n)` on every acceptor.
The coroutines contain no awaits, so the gather is a sequential map over
independent acceptor states. -/
def prepPhase (accs : List AcceptorState) (n : Int) : List (PrepareResp × AcceptorState) :=
  accs.map (fun a => acceptorPrepare a n)

/-- The Phase-2 fan-out (line 266). -/
def accPhase (accs : List AcceptorState) (n value : Int) : List (Bool × AcceptorState) :=
  accs.map (fun a => acceptorAccept a n value)

/-- Line 244: `sum(1 for r in responses if r['promised'])`. -/
def promisesCount (rs : List PrepareResp) : Nat :=
  (rs.filter (fun r => r.promised)).length

/-- One iteration of the highest-accepted scan (lines 253–257): the running
`(highest_accepted, highest_n)` pair is updated only for a promising response
whose `accepted_value` is truthy and whose `accepted_n` (read with
`.get('accepted_n', -1)`) exceeds the running maximum. -/
def selStep (acc : Option Int × Int) (r : PrepareResp) : Option Int × Int :=
  if r.promised && pyTruthy r.acceptedValue && decide (r.acceptedN.getD (-1) > acc.2) then
    (r.acceptedValue, r.acceptedN.getD (-1))
  else acc

/-- The highest-accepted scan of `PaxosProposer.prepare` (lines 250–257),
starting from `(None, -1)`. -/
def selectHighest (rs : List PrepareResp) : Option Int × Int :=
  rs.foldl selStep (none, -1)

/-- `PaxosProposer.prepare` together with the Phase-2 `accept` it tail-calls
(lines 238–272), over value-semantics acceptor states: returns either the
raised error message, or the result dictionary with the final acceptor and
proposer states. -/
def proposerPrepare (p : ProposerState) (accs : List AcceptorState) (value : Int) :
    Except String (PaxosResult × List AcceptorState × ProposerState) :=
  let n := p.proposalNumber
  let p1 : ProposerState := { p with proposalNumber := p.proposalNumber + (accs.length : Int) }
  let pr := prepPhase accs n
  let rs := pr.map Prod.fst
  if promisesCount rs ≤ accs.length / 2 then
    Except.error "Failed to get majority promises"
  else
    let valueToPropose := (selectHighest rs).1.getD value
    let ar := accPhase (pr.map Prod.snd) n valueToPropose
    if 2 * (ar.filter (fun x => x.1)).length > accs.length then
      Except.ok (⟨true, valueToPropose, n⟩, ar.map Prod.snd, p1)
    else
      Except.error "Failed to get majority accepts"

/-- The qualifying condition of the highest-accepted scan, minus the running
maximum: a promising response with a truthy accepted value. -/
def qualResp (r : PrepareResp) : Prop :=
  r.promised = true ∧ pyTruthy r.acceptedValue = true

instance qualRespDec (r : PrepareResp) : Decidable (qualResp r) := by
  unfold qualResp; infer_instance

/-! ## Helper lemmas -/

theorem mem_intRange {a b i : Int} : i ∈ intRange a b ↔ a ≤ i ∧ i < b := by
  unfold intRange
  simp only [List.mem_map, List.mem_range]
  constructor
  · rintro ⟨k, hk, rfl⟩
    omega
  · rintro ⟨h1, h2⟩
    exact ⟨(i - a).toNat, by omega, by omega⟩

theorem intRange_pairwise (a b : Int) : (intRange a b).Pairwise (· < ·) := by
  unfold intRange
  refine (List.pairwise_map).mpr ?_
  refine (List.pairwise_lt_range _).imp ?_
  intro x y h
  change a + (x : Int) < a + (y : Int)
  omega

/-- The running maximum kept by the `_update_commit_index` loop over a strictly
increasing index list: it is either untouched, or the largest qualifying index. -/
theorem foldl_pick (s : RaftState) :
    ∀ (l : List Int), l.Pairwise (· < ·) → ∀ (c0 : Int),
      (l.foldl (fun c i => if commitQualifies s i then i else c) c0 = c0 ∧
        ∀ i ∈ l, ¬ commitQualifies s i) ∨
      (commitQualifies s (l.foldl (fun c i => if commitQualifies s i then i else c) c0) ∧
        (l.foldl (fun c i => if commitQualifies s i then i else c) c0) ∈ l ∧
        ∀ i ∈ l, commitQualifies s i →
          i ≤ l.foldl (fun c i => if commitQualifies s i then i else c) c0) := by
  intro l
  induction l using List.reverseRecOn with
  | nil =>
    intro _ c0
    left
    exact ⟨rfl, by simp⟩
  | append_singleton l x ih =>
    intro hp c0
    obtain ⟨hl, -, hcross⟩ := List.pairwise_append.mp hp
    rw [List.foldl_append, List.foldl_cons, List.foldl_nil]
    by_cases hq : commitQualifies s x
    · right
      refine ⟨by simp [hq], by simp [hq], ?_⟩
      intro i hi _
      simp only [if_pos hq]
      rcases List.mem_append.mp hi with hi | hi
      · exact le_of_lt (hcross i hi x (by simp))
      · simp only [List.mem_singleton] at hi
        omega
    · simp only [if_neg hq]
      rcases ih hl c0 with ⟨he, hnone⟩ | ⟨hq', hmem, hmax⟩
      · left
        refine ⟨he, ?_⟩
        intro i hi
        rcases List.mem_append.mp hi with hi | hi
        · exact hnone i hi
        · simp only [List.mem_singleton] at hi
          subst hi
          exact hq
      · right
        refine ⟨hq', List.mem_append_left _ hmem, ?_⟩
        intro i hi hqi
        rcases List.mem_append.mp hi with hi | hi
        · exact hmax i hi hqi
        · simp only [List.mem_singleton] at hi
          subst hi
          exact absurd hqi hq

theorem updateCommitIndex_commit (s : RaftState) :
    (updateCommitIndex s).commitIndex =
      (intRange (s.commitIndex + 1) (s.log.length : Int)).foldl
        (fun c i => if commitQualifies s i then i else c) s.commitIndex := rfl

theorem updateCommitIndex_log (s : RaftState) : (updateCommitIndex s).log = s.log := rfl

/-- The code's majority test `count > len(nodes) / 2` (exact division) agrees
with the quorum formulation `count ≥ ⌊n/2⌋ + 1`. -/
theorem quorum_iff (c n : Nat) : n / 2 + 1 ≤ c ↔ 2 * c > n := by omega

/-! ## C2: leader commit advancement -/

/-- C2: after `_update_commit_index`, `commitIndex` is advanced to an index `i`
only if a quorum of `⌊n/2⌋+1` nodes (the leader plus peers with
`matchIndex ≥ i`) hold the entry at `i` and that entry's term is `currentTerm`;
the result is the largest such qualifying index (or the old value if none
qualifies). -/
theorem updateCommitIndex_spec (s : RaftState) (hlead : s.state = RaftRole.leader)
    (hc : -1 ≤ s.commitIndex) :
    ((updateCommitIndex s).commitIndex = s.commitIndex ∧
      ∀ i : Int, s.commitIndex < i → i < (s.log.length : Int) →
        ¬ (s.nodes.length / 2 + 1 ≤ countReplicated s i ∧ pyLogTerm s.log i = s.currentTerm)) ∨
    ((s.nodes.length / 2 + 1 ≤ countReplicated s ((updateCommitIndex s).commitIndex) ∧
        pyLogTerm s.log ((updateCommitIndex s).commitIndex) = s.currentTerm) ∧
      s.commitIndex < (updateCommitIndex s).commitIndex ∧
      (updateCommitIndex s).commitIndex < (s.log.length : Int) ∧
      ∀ i : Int, s.commitIndex < i → i < (s.log.length : Int) →
        s.nodes.length / 2 + 1 ≤ countReplicated s i → pyLogTerm s.log i = s.currentTerm →
        i ≤ (updateCommitIndex s).commitIndex) := by
  have hq : ∀ i : Int, commitQualifies s i ↔
      (s.nodes.length / 2 + 1 ≤ countReplicated s i ∧ pyLogTerm s.log i = s.currentTerm) := by
    intro i
    unfold commitQualifies
    rw [quorum_iff]
  rw [updateCommitIndex_commit]
  rcases foldl_pick s _ (intRange_pairwise (s.commitIndex + 1) (s.log.length : Int))
      s.commitIndex with ⟨he, hnone⟩ | ⟨hq', hmem, hmax⟩
  · left
    refine ⟨he, ?_⟩
    intro i h1 h2 hcl
    exact hnone i (mem_intRange.mpr ⟨by omega, h2⟩) ((hq i).mpr hcl)
  · right
    have hmem' := mem_intRange.mp hmem
    refine ⟨(hq _).mp hq', by omega, by omega, ?_⟩
    intro i h1 h2 h3 h4
    exact hmax i (mem_intRange.mpr ⟨by omega, h2⟩) ((hq i).mpr ⟨h3, h4⟩)

def raftLeaderOne : RaftState :=
  ⟨0, [0, 1, 2], RaftRole.leader, 1, some 0, [⟨1, 7, 0⟩], -1, [(1, 0), (2, -1)]⟩

theorem updateCommitIndex_spec_witness : (updateCommitIndex raftLeaderOne).commitIndex = 0 := by
  have hlen : ((raftLeaderOne.log.length : Int)) = 1 := by decide
  have hci : raftLeaderOne.commitIndex = -1 := by decide
  rcases updateCommitIndex_spec raftLeaderOne rfl (by decide) with ⟨hc, hall⟩ | ⟨-, h1, h2, -⟩
  · exact absurd (by decide :
      raftLeaderOne.nodes.length / 2 + 1 ≤ countReplicated raftLeaderOne 0 ∧
        pyLogTerm raftLeaderOne.log 0 = raftLeaderOne.currentTerm)
      (hall 0 (by decide) (by rw [hlen]; omega))
  · omega

/-! ## C4 and C5: the commit-index bound and monotonicity -/

/-- C4 (amended): `commitIndex ≤ len(log) - 1` holds initially and is preserved
by `_update_commit_index`; it is preserved by `append_entries` provided the
call does not truncate the log to `commitIndex` entries or fewer while
`leaderCommit ≤ commitIndex` — that is, whenever `leaderCommit > commitIndex`,
or `entries` is empty, or the truncated-and-extended log is longer than
`commitIndex`.  (The unconditional claim fails: see the counterexample.) -/
theorem commitIndex_le_log_length :
    (∀ (nid : Int) (nodes : List Int),
      (initRaftNode nid nodes).commitIndex ≤ ((initRaftNode nid nodes).log.length : Int) - 1) ∧
    (∀ s : RaftState, s.commitIndex ≤ (s.log.length : Int) - 1 →
      (updateCommitIndex s).commitIndex ≤ ((updateCommitIndex s).log.length : Int) - 1) ∧
    (∀ (s : RaftState) (t lid prev pterm : Int) (entries : List LogEntry) (lc : Int),
      s.commitIndex ≤ (s.log.length : Int) - 1 →
      (s.commitIndex < lc ∨ entries = [] ∨
        s.commitIndex < ((pyTake s.log (prev + 1)).length : Int) + (entries.length : Int)) →
      ((appendEntries s t lid prev pterm entries lc).2).commitIndex ≤
        (((appendEntries s t lid prev pterm entries lc).2).log.length : Int) - 1) := by
  refine ⟨?_, ?_, ?_⟩
  · intro nid nodes
    simp [initRaftNode]
  · intro s h
    rw [updateCommitIndex_log, updateCommitIndex_commit]
    rcases foldl_pick s _ (intRange_pairwise (s.commitIndex + 1) (s.log.length : Int))
        s.commitIndex with ⟨he, -⟩ | ⟨-, hmem, -⟩
    · rw [he]
      exact h
    · have := mem_intRange.mp hmem
      omega
  · intro s t lid prev pterm entries lc h hguard
    unfold appendEntries
    split_ifs with h1 h2
    · exact h
    · show postAppendCommit s.commitIndex lc ((postAppendLog s.log prev entries).length : Int) ≤
        ((postAppendLog s.log prev entries).length : Int) - 1
      unfold postAppendCommit
      split_ifs with h3
      · omega
      · unfold postAppendLog
        by_cases he : entries.isEmpty
        · simp only [if_pos he]
          exact h
        · simp only [if_neg he]
          rcases hguard with hguard | hguard | hguard
          · omega
          · rw [hguard] at he
            simp at he
          · rw [List.length_append]
            push_cast
            omega
    · exact h

/-- C5 (amended): `_update_commit_index` never decreases `commitIndex`, and
`append_entries` never decreases it provided the log it leaves behind is longer
than `commitIndex` (which holds in particular for empty-entries heartbeats on a
state satisfying the C4 bound).  (The unconditional claim fails: see the
counterexample.) -/
theorem commitIndex_monotone :
    (∀ s : RaftState, s.commitIndex ≤ (updateCommitIndex s).commitIndex) ∧
    (∀ (s : RaftState) (t lid prev pterm : Int) (entries : List LogEntry) (lc : Int),
      s.commitIndex < ((postAppendLog s.log prev entries).length : Int) →
      s.commitIndex ≤ ((appendEntries s t lid prev pterm entries lc).2).commitIndex) := by
  constructor
  · intro s
    rw [updateCommitIndex_commit]
    rcases foldl_pick s _ (intRange_pairwise (s.commitIndex + 1) (s.log.length : Int))
        s.commitIndex with ⟨he, -⟩ | ⟨-, hmem, -⟩
    · omega
    · have := mem_intRange.mp hmem
      omega
  · intro s t lid prev pterm entries lc h
    unfold appendEntries
    split_ifs with h1 h2
    · exact le_refl _
    · show s.commitIndex ≤
        postAppendCommit s.commitIndex lc ((postAppendLog s.log prev entries).length : Int)
      unfold postAppendCommit
      split_ifs with h3
      · omega
      · exact le_refl _
    · exact le_refl _

def raftTwoEntries : RaftState :=
  ⟨1, [0, 1, 2], RaftRole.follower, 1, none, [⟨1, 10, 0⟩, ⟨1, 11, 1⟩], -1, []⟩

def raftThreeEntries : RaftState :=
  ⟨1, [0, 1, 2], RaftRole.follower, 0, none, [⟨0, 1, 0⟩, ⟨0, 2, 1⟩, ⟨0, 3, 2⟩], 2, []⟩

/-- C4 counterexample: from a state satisfying `commitIndex ≤ len(log) - 1`
(three entries, `commitIndex = 2`), the accepted call
`append_entries(term=0, leaderId=0, prevLogIndex=-1, prevLogTerm=0,
entries=[one entry], leaderCommit=-1)` truncates the log to one entry and
leaves `commitIndex = 2`, violating the bound. -/
theorem appendEntries_breaks_commit_bound :
    raftThreeEntries.commitIndex ≤ (raftThreeEntries.log.length : Int) - 1 ∧
    ¬ (((appendEntries raftThreeEntries 0 0 (-1) 0 [⟨0, 9, 0⟩] (-1)).2).commitIndex ≤
        (((appendEntries raftThreeEntries 0 0 (-1) 0 [⟨0, 9, 0⟩] (-1)).2).log.length : Int) - 1) := by
  decide

/-- C5 counterexample: the same truncating call with `leaderCommit = 5` drops
`commitIndex` from 2 to 0, so `commitIndex` is not monotone over arbitrary
`append_entries` calls. -/
theorem appendEntries_decreases_commit :
    ((appendEntries raftThreeEntries 0 0 (-1) 0 [⟨0, 9, 0⟩] 5).2).commitIndex <
      raftThreeEntries.commitIndex := by
  decide

theorem commitIndex_le_log_length_witness :
    ((appendEntries raftTwoEntries 1 0 0 1 [] (-1)).2).commitIndex ≤
      (((appendEntries raftTwoEntries 1 0 0 1 [] (-1)).2).log.length : Int) - 1 :=
  commitIndex_le_log_length.2.2 raftTwoEntries 1 0 0 1 [] (-1) (by decide)
    (Or.inr (Or.inl rfl))

theorem commitIndex_monotone_witness :
    raftTwoEntries.commitIndex ≤
      ((appendEntries raftTwoEntries 1 0 0 1 [] (-1)).2).commitIndex :=
  commitIndex_monotone.2 raftTwoEntries 1 0 0 1 [] (-1) (by decide)

/-! ## C1: the append_entries contract -/

/-- C1 (amended): `append_entries` returns false and changes nothing when
`term < currentTerm`; otherwise it adopts the term and becomes follower, and
returns false exactly when the consistency check fails
(`prevLogIndex ≥ 0` with a too-short log or a mismatched term at
`prevLogIndex`).  On acceptance the log is truncated at `prevLogIndex + 1` and
extended with `entries` only when `entries` is nonempty — an accepted
empty-entries heartbeat leaves the log unchanged — and then `commitIndex`
becomes `min(leaderCommit, len(log) - 1)` when `leaderCommit > commitIndex`
(the code's guard tests `leaderCommit`, not the minimum). -/
theorem appendEntries_spec (s : RaftState) (t lid prev pterm : Int)
    (entries : List LogEntry) (lc : Int) (ok : Bool) (s2 : RaftState)
    (h : appendEntries s t lid prev pterm entries lc = (ok, s2)) :
    (t < s.currentTerm → ok = false ∧ s2 = s) ∧
    (s.currentTerm ≤ t →
      s2.currentTerm = t ∧ s2.state = RaftRole.follower ∧
      (ok = false ↔
        prev ≥ 0 ∧ ((s.log.length : Int) ≤ prev ∨ pyLogTerm s.log prev ≠ pterm)) ∧
      (ok = true →
        s2.log = (if entries = [] then s.log else pyTake s.log (prev + 1) ++ entries) ∧
        s2.commitIndex =
          (if lc > s.commitIndex then min lc ((s2.log.length : Int) - 1)
           else s.commitIndex))) := by
  unfold appendEntries at h
  split_ifs at h with h1 h2
  · injection h with ha hb
    subst ha hb
    refine ⟨fun hlt => absurd h1 (by omega), fun _ => ⟨rfl, rfl, ?_, ?_⟩⟩
    · exact iff_of_true rfl h2
    · intro hok
      exact absurd hok (by simp)
  · injection h with ha hb
    subst ha hb
    refine ⟨fun hlt => absurd h1 (by omega), fun _ => ⟨rfl, rfl, ?_, ?_⟩⟩
    · exact iff_of_false (by simp) h2
    · intro _
      constructor
      · show postAppendLog s.log prev entries = _
        by_cases he : entries = [] <;> simp [postAppendLog, List.isEmpty_iff, he]
      · show postAppendCommit s.commitIndex lc
            ((postAppendLog s.log prev entries).length : Int) = _
        unfold postAppendCommit
        rfl
  · injection h with ha hb
    subst ha hb
    exact ⟨fun _ => ⟨rfl, rfl⟩, fun hle => absurd hle h1⟩

/-- C1 counterexample: the accepted empty-entries heartbeat
`append_entries(1, 0, 0, 1, [], -1)` on a two-entry log returns true but
leaves both entries in place instead of truncating the log at
`prevLogIndex + 1` and appending the (empty) `entries`. -/
theorem appendEntries_no_heartbeat_truncation :
    (appendEntries raftTwoEntries 1 0 0 1 [] (-1)).1 = true ∧
    (appendEntries raftTwoEntries 1 0 0 1 [] (-1)).2.log ≠
      pyTake raftTwoEntries.log (0 + 1) ++ [] := by
  decide

theorem appendEntries_spec_witness :
    ((appendEntries raftTwoEntries 1 0 0 1 [] (-1)).2).currentTerm = 1 :=
  ((appendEntries_spec raftTwoEntries 1 0 0 1 [] (-1)
      (appendEntries raftTwoEntries 1 0 0 1 [] (-1)).1
      (appendEntries raftTwoEntries 1 0 0 1 [] (-1)).2 rfl).2 (by decide)).1

/-! ## C3: the request_vote contract -/

/-- C3: `request_vote` first adopts a strictly larger term (clearing
`votedFor`), and grants the vote — returning true and recording
`votedFor = candidateId` — exactly when the request's term equals the possibly
just adopted current term, the possibly just cleared `votedFor` is free or
already the candidate, and the candidate's log is at least as up-to-date as
the receiver's (`lastLogTerm` beats the receiver's last-entry term, or equal
terms with `lastLogIndex ≥ len(log) - 1`). -/
theorem requestVote_spec (s : RaftState) (t cid lli llt : Int) (g : Bool) (s2 : RaftState)
    (h : requestVote s t cid lli llt = (g, s2)) :
    (t > s.currentTerm → s2.currentTerm = t ∧ (g = false → s2.votedFor = none)) ∧
    (g = true ↔
      t = (adoptVote s t).currentTerm ∧
      ((adoptVote s t).votedFor = none ∨ (adoptVote s t).votedFor = some cid) ∧
      (llt > lastTermOf s.log ∨
        (llt = lastTermOf s.log ∧ lli ≥ (s.log.length : Int) - 1))) ∧
    (g = true → s2.votedFor = some cid ∧
      s2.currentTerm = (if t > s.currentTerm then t else s.currentTerm)) := by
  have hlog : (adoptVote s t).log = s.log := by
    unfold adoptVote
    split_ifs <;> rfl
  have hct : (adoptVote s t).currentTerm =
      (if t > s.currentTerm then t else s.currentTerm) := by
    unfold adoptVote
    split_ifs <;> rfl
  have hup : upToDateLog (adoptVote s t) lli llt ↔
      (llt > lastTermOf s.log ∨
        (llt = lastTermOf s.log ∧ lli ≥ (s.log.length : Int) - 1)) := by
    unfold upToDateLog
    rw [hlog]
  unfold requestVote at h
  split_ifs at h with hc
  · injection h with ha hb
    subst ha hb
    refine ⟨?_, ?_, ?_⟩
    · intro hgt
      refine ⟨?_, ?_⟩
      · show (adoptVote s t).currentTerm = t
        rw [hct, if_pos hgt]
      · intro h'
        exact absurd h' (by simp)
    · exact iff_of_true rfl ⟨hc.1, hc.2.1, hup.mp hc.2.2⟩
    · intro _
      exact ⟨rfl, hct⟩
  · injection h with ha hb
    subst ha hb
    refine ⟨?_, ?_, ?_⟩
    · intro hgt
      refine ⟨by rw [hct, if_pos hgt], ?_⟩
      intro _
      show (adoptVote s t).votedFor = none
      unfold adoptVote
      rw [if_pos hgt]
    · refine iff_of_false (by simp) ?_
      intro hr
      exact hc ⟨hr.1, hr.2.1, hup.mpr hr.2.2⟩
    · intro h'
      exact absurd h' (by simp)

def raftVoter : RaftState :=
  ⟨0, [0, 1, 2], RaftRole.follower, 1, some 2, [], -1, []⟩

theorem requestVote_spec_witness : (requestVote raftVoter 2 5 (-1) 0).1 = true :=
  ((requestVote_spec raftVoter 2 5 (-1) 0
      (requestVote raftVoter 2 5 (-1) 0).1
      (requestVote raftVoter 2 5 (-1) 0).2 Prod.mk.eta.symm).2.1).mpr (by decide)

/-! ## C9: the propose_entry contract -/

/-- C9: `propose_entry` raises "Only leader can propose entries" exactly when
the node's role is not leader, leaving the state unchanged in that case; a
leader appends and returns `LogEntry(term=currentTerm, command,
index=len(log))` built from the log length before the append. -/
theorem proposeEntry_spec (s : RaftState) (cmd : Int) :
    (((proposeEntry s cmd).1 = Except.error "Only leader can propose entries") ↔
      s.state ≠ RaftRole.leader) ∧
    (s.state ≠ RaftRole.leader → (proposeEntry s cmd).2 = s) ∧
    (s.state = RaftRole.leader →
      (proposeEntry s cmd).1 =
        Except.ok (⟨s.currentTerm, cmd, (s.log.length : Int)⟩ : LogEntry) ∧
      (proposeEntry s cmd).2 =
        { s with log := s.log ++ [(⟨s.currentTerm, cmd, (s.log.length : Int)⟩ : LogEntry)] }) := by
  by_cases hs : s.state = RaftRole.leader <;> simp [proposeEntry, hs]

theorem proposeEntry_spec_witness : (proposeEntry raftTwoEntries 5).2 = raftTwoEntries :=
  (proposeEntry_spec raftTwoEntries 5).2.1 (by decide)

/-! ## C10: append_entries resets votedFor even at an equal term -/

/-- If a node has no recorded vote and its term equals the request's term, a
`request_vote` whose candidate log is up-to-date is granted. -/
theorem requestVote_grants_fresh (x : RaftState) (t c2 lli llt : Int)
    (h1 : x.votedFor = none) (h2 : x.currentTerm = t)
    (h3 : llt > lastTermOf x.log ∨
      (llt = lastTermOf x.log ∧ lli ≥ (x.log.length : Int) - 1)) :
    (requestVote x t c2 lli llt).1 = true ∧
    (requestVote x t c2 lli llt).2.votedFor = some c2 := by
  have hA : adoptVote x t = x := by
    unfold adoptVote
    rw [if_neg (by omega)]
  have hcond : t = (adoptVote x t).currentTerm ∧
      ((adoptVote x t).votedFor = none ∨ (adoptVote x t).votedFor = some c2) ∧
      upToDateLog (adoptVote x t) lli llt := by
    rw [hA]
    exact ⟨h2.symm, Or.inl h1, h3⟩
  unfold requestVote
  rw [if_pos hcond]
  exact ⟨rfl, rfl⟩

/-- C10: any `append_entries` whose term is at least `currentTerm` — an equal
term, an empty-entries heartbeat, and a call rejected by the consistency check
included — resets `votedFor` to none and the role to follower; consequently a
node that had already granted a vote in the current term will grant another
vote, to any candidate with an up-to-date log, at that same term. -/
theorem appendEntries_resets_vote (s : RaftState) (t lid prev pterm : Int)
    (entries : List LogEntry) (lc c1 : Int) (ok : Bool) (s2 : RaftState)
    (hv : s.votedFor = some c1) (ht : s.currentTerm ≤ t)
    (h : appendEntries s t lid prev pterm entries lc = (ok, s2)) :
    s2.votedFor = none ∧ s2.state = RaftRole.follower ∧ s2.currentTerm = t ∧
    ∀ c2 lli llt : Int,
      (llt > lastTermOf s2.log ∨
        (llt = lastTermOf s2.log ∧ lli ≥ (s2.log.length : Int) - 1)) →
      (requestVote s2 t c2 lli llt).1 = true ∧
      (requestVote s2 t c2 lli llt).2.votedFor = some c2 := by
  unfold appendEntries at h
  rw [if_pos (by omega : t ≥ s.currentTerm)] at h
  by_cases h2 : prev ≥ 0 ∧ ((s.log.length : Int) ≤ prev ∨ pyLogTerm s.log prev ≠ pterm)
  · rw [if_pos h2] at h
    injection h with ha hb
    subst hb
    exact ⟨rfl, rfl, rfl, fun c2 lli llt h3 =>
      requestVote_grants_fresh _ t c2 lli llt rfl rfl h3⟩
  · rw [if_neg h2] at h
    injection h with ha hb
    subst hb
    exact ⟨rfl, rfl, rfl, fun c2 lli llt h3 =>
      requestVote_grants_fresh _ t c2 lli llt rfl rfl h3⟩

theorem appendEntries_resets_vote_witness :
    (requestVote ((appendEntries raftVoter 1 0 (-1) 0 [] (-1)).2) 1 5 (-1) 0).1 = true :=
  ((appendEntries_resets_vote raftVoter 1 0 (-1) 0 [] (-1) 2
      (appendEntries raftVoter 1 0 (-1) 0 [] (-1)).1
      (appendEntries raftVoter 1 0 (-1) 0 [] (-1)).2
      (by decide) (by decide) rfl).2.2.2 5 (-1) 0 (by decide)).1

/-! ## C8: acceptor numbers never decrease -/

/-- Every acceptor state reachable from `__init__` by `prepare`/`accept` calls
satisfies `accepted_n ≤ promised_n`. -/
theorem reachable_acceptedN_le (a : AcceptorState) (h : AcceptorReachable a) :
    a.acceptedN ≤ a.promisedN := by
  induction h with
  | init acceptorId => exact le_refl _
  | prep n h ih =>
    rename_i a'
    unfold acceptorPrepare
    split_ifs with hn
    · show a'.acceptedN ≤ n
      omega
    · exact ih
  | acc n value h ih =>
    rename_i a'
    unfold acceptorAccept
    split_ifs with hn
    · exact le_refl _
    · exact ih

/-- C8: on any reachable `PaxosAcceptor` state, a `prepare(n)` call and an
`accept(n, value)` call each leave `promised_n` and `accepted_n` at or above
their previous values. -/
theorem acceptorNumbers_monotone (a : AcceptorState) (h : AcceptorReachable a)
    (n value : Int) :
    a.promisedN ≤ ((acceptorPrepare a n).2).promisedN ∧
    a.acceptedN ≤ ((acceptorPrepare a n).2).acceptedN ∧
    a.promisedN ≤ ((acceptorAccept a n value).2).promisedN ∧
    a.acceptedN ≤ ((acceptorAccept a n value).2).acceptedN := by
  have hinv := reachable_acceptedN_le a h
  unfold acceptorPrepare acceptorAccept
  split_ifs with h1 h2 <;> dsimp only <;> refine ⟨?_, ?_, ?_, ?_⟩ <;> omega

theorem acceptorNumbers_monotone_witness :
    (initAcceptor 0).promisedN ≤ ((acceptorPrepare (initAcceptor 0) 3).2).promisedN ∧
    (initAcceptor 0).acceptedN ≤ ((acceptorPrepare (initAcceptor 0) 3).2).acceptedN ∧
    (initAcceptor 0).promisedN ≤ ((acceptorAccept (initAcceptor 0) 3 7).2).promisedN ∧
    (initAcceptor 0).acceptedN ≤ ((acceptorAccept (initAcceptor 0) 3 7).2).acceptedN :=
  acceptorNumbers_monotone (initAcceptor 0) (AcceptorReachable.init 0) 3 7

/-! ## C6: the prepare response -/

/-- C6 (amended): `prepare(n)` grants exactly when `n > promised_n`, updating
`promised_n = n`; the currently accepted `(number, value)` pair is reported on
a granted promise only — a refusal is the bare `{'promised': False}` and
leaves the acceptor unchanged. -/
theorem acceptorPrepare_spec (a : AcceptorState) (n : Int) :
    ((acceptorPrepare a n).1.promised = true ↔ n > a.promisedN) ∧
    (n > a.promisedN →
      (acceptorPrepare a n).2 = { a with promisedN := n } ∧
      (acceptorPrepare a n).1 = ⟨true, some a.acceptedN, a.acceptedValue⟩) ∧
    (¬ n > a.promisedN →
      (acceptorPrepare a n).2 = a ∧
      (acceptorPrepare a n).1 = ⟨false, none, none⟩) := by
  unfold acceptorPrepare
  split_ifs with h1 <;> simp [h1]

def paxosRefuser : AcceptorState := ⟨0, 5, 3, some 42⟩

/-- C6 counterexample: this acceptor has accepted `(3, 42)`, yet the refused
`prepare(4)` reports neither field — the response is the bare
`{'promised': False}` — contradicting "always reports its currently accepted
pair regardless of promise outcome". -/
theorem acceptorPrepare_refusal_hides_accepted :
    (acceptorPrepare paxosRefuser 4).1.promised = false ∧
    (acceptorPrepare paxosRefuser 4).1.acceptedN = none ∧
    (acceptorPrepare paxosRefuser 4).1.acceptedValue = none ∧
    paxosRefuser.acceptedN = 3 ∧ paxosRefuser.acceptedValue = some 42 := by
  decide

theorem acceptorPrepare_spec_witness :
    (acceptorPrepare paxosRefuser 4).2 = paxosRefuser :=
  ((acceptorPrepare_spec paxosRefuser 4).2.2 (by decide)).1

/-! ## C7: the proposer's prepare round -/

/-- An acceptor that granted `prepare(n)` has `promised_n = n` afterwards, so
it accepts the Phase-2 `accept(n, value)` of the same round. -/
theorem promised_then_accepts (a : AcceptorState) (n value : Int)
    (h : (acceptorPrepare a n).1.promised = true) :
    (acceptorAccept (acceptorPrepare a n).2 n value).1 = true := by
  unfold acceptorPrepare at h ⊢
  by_cases hn : n > a.promisedN
  · rw [if_pos hn]
    simp [acceptorAccept]
  · rw [if_neg hn] at h
    simp at h

/-- Pointwise monotonicity of `countP`. -/
theorem countP_le_of_imp {α : Type} (p q : α → Bool) (l : List α)
    (h : ∀ x ∈ l, p x = true → q x = true) :
    l.countP p ≤ l.countP q := by
  induction l with
  | nil => simp
  | cons a l ih =>
    have hih := ih (fun x hx hpx => h x (List.mem_cons_of_mem a hx) hpx)
    by_cases hp : p a = true
    · rw [List.countP_cons_of_pos p l hp,
        List.countP_cons_of_pos q l (h a (List.mem_cons_self a l) hp)]
      omega
    · rw [List.countP_cons_of_neg p l hp]
      by_cases hq : q a = true
      · rw [List.countP_cons_of_pos q l hq]
        omega
      · rw [List.countP_cons_of_neg q l hq]
        exact hih

/-- In one `PaxosProposer.prepare` round, at least as many acceptors accept in
Phase 2 as promised in Phase 1. -/
theorem accepts_ge_promises (accs : List AcceptorState) (n value : Int) :
    promisesCount ((prepPhase accs n).map Prod.fst) ≤
      ((accPhase ((prepPhase accs n).map Prod.snd) n value).filter (fun x => x.1)).length := by
  unfold promisesCount prepPhase accPhase
  rw [← List.countP_eq_length_filter, ← List.countP_eq_length_filter]
  simp only [List.map_map, List.countP_map]
  refine countP_le_of_imp _ _ accs ?_
  intro a _ hp
  simp only [Function.comp_apply] at hp ⊢
  exact promised_then_accepts a n value hp

/-- Every Phase-1 response is `acceptor.prepare(n)` of some acceptor. -/
theorem mem_prepResponses {accs : List AcceptorState} {n : Int} {r : PrepareResp}
    (h : r ∈ (prepPhase accs n).map Prod.fst) :
    ∃ a ∈ accs, r = (acceptorPrepare a n).1 := by
  unfold prepPhase at h
  rw [List.map_map] at h
  obtain ⟨a, ha, heq⟩ := List.mem_map.mp h
  exact ⟨a, ha, heq.symm⟩

/-- When every acceptor with an accepted value has a nonnegative accepted
number, a qualifying response (promising, truthy accepted value) reports a
nonnegative `accepted_n`. -/
theorem qualResp_acceptedN_nonneg {accs : List AcceptorState} {n : Int} {r : PrepareResp}
    (hacc : ∀ a ∈ accs, a.acceptedValue.isSome = true → 0 ≤ a.acceptedN)
    (hm : r ∈ (prepPhase accs n).map Prod.fst) (hq : qualResp r) :
    0 ≤ r.acceptedN.getD (-1) := by
  obtain ⟨a, ha, rfl⟩ := mem_prepResponses hm
  obtain ⟨hq1, hq2⟩ := hq
  unfold acceptorPrepare at hq1 hq2 ⊢
  by_cases hn : n > a.promisedN
  · rw [if_pos hn] at hq2 ⊢
    have hsome : a.acceptedValue.isSome = true := by
      rcases hv : a.acceptedValue with _ | v
      · rw [hv] at hq2
        exact absurd hq2 (by simp [pyTruthy])
      · simp
    have := hacc a ha hsome
    simpa using this
  · rw [if_neg hn] at hq1
    exact absurd hq1 (by simp)

/-- The fold of the highest-accepted scan from an arbitrary running pair: the
result is the start or a qualifying response's pair with a strictly larger
number, it bounds every qualifying response's number, and it never decreases. -/
theorem selectHighest_fold (rs : List PrepareResp) :
    ∀ st : Option Int × Int,
      (rs.foldl selStep st = st ∨
        ∃ r ∈ rs, qualResp r ∧ (rs.foldl selStep st).1 = r.acceptedValue ∧
          (rs.foldl selStep st).2 = r.acceptedN.getD (-1) ∧
          st.2 < (rs.foldl selStep st).2) ∧
      (∀ r ∈ rs, qualResp r → r.acceptedN.getD (-1) ≤ (rs.foldl selStep st).2) ∧
      st.2 ≤ (rs.foldl selStep st).2 := by
  induction rs with
  | nil =>
    intro st
    exact ⟨Or.inl rfl, by simp, le_refl _⟩
  | cons r rs ih =>
    intro st
    rw [List.foldl_cons]
    by_cases hc : (r.promised && pyTruthy r.acceptedValue &&
        decide (r.acceptedN.getD (-1) > st.2)) = true
    · have hstep : selStep st r = (r.acceptedValue, r.acceptedN.getD (-1)) := by
        unfold selStep
        rw [if_pos hc]
      have hv' : (selStep st r).1 = r.acceptedValue := by rw [hstep]
      have hn' : (selStep st r).2 = r.acceptedN.getD (-1) := by rw [hstep]
      have hq : qualResp r := by
        unfold qualResp
        simp only [Bool.and_eq_true] at hc
        exact ⟨hc.1.1, hc.1.2⟩
      have hgt : st.2 < r.acceptedN.getD (-1) := by
        simp only [Bool.and_eq_true, decide_eq_true_eq] at hc
        exact hc.2
      obtain ⟨h1, h2, h3⟩ := ih (selStep st r)
      refine ⟨?_, ?_, ?_⟩
      · rcases h1 with h1 | ⟨r', hr', hq', hv2, hn2, hlt2⟩
        · right
          refine ⟨r, by simp, hq, ?_, ?_, ?_⟩
          · rw [h1, hv']
          · rw [h1, hn']
          · rw [h1]
            omega
        · right
          refine ⟨r', by simp [hr'], hq', hv2, hn2, ?_⟩
          omega
      · intro r0 hr0 hq0
        rcases List.mem_cons.mp hr0 with rfl | hr0
        · omega
        · exact h2 r0 hr0 hq0
      · omega
    · have hstep : selStep st r = st := by
        unfold selStep
        rw [if_neg hc]
      rw [hstep]
      obtain ⟨h1, h2, h3⟩ := ih st
      refine ⟨?_, ?_, h3⟩
      · rcases h1 with h1 | ⟨r', hr', hrest⟩
        · exact Or.inl h1
        · exact Or.inr ⟨r', List.mem_cons_of_mem r hr', hrest⟩
      intro r0 hr0 hq0
      rcases List.mem_cons.mp hr0 with rfl | hr0
      · have hle : ¬ (r0.acceptedN.getD (-1) > st.2) := by
          intro hgt
          apply hc
          obtain ⟨ha1, ha2⟩ := hq0
          rw [ha1, ha2]
          simp [hgt]
        omega
      · exact h2 r0 hr0 hq0

theorem selectHighest_eq_foldl (rs : List PrepareResp) :
    selectHighest rs = rs.foldl selStep (none, -1) := rfl

/-- The quorum-failure branch of `PaxosProposer.prepare` (lines 246–247). -/
theorem proposerPrepare_err (p : ProposerState) (accs : List AcceptorState) (value : Int)
    (hq : promisesCount ((prepPhase accs p.proposalNumber).map Prod.fst) ≤ accs.length / 2) :
    proposerPrepare p accs value = Except.error "Failed to get majority promises" := by
  simp [proposerPrepare, hq]

/-- With a promise quorum, Phase 2 of the same call reaches its quorum too
(every promiser accepts), so `prepare` returns the chosen-value dictionary. -/
theorem proposerPrepare_ok (p : ProposerState) (accs : List AcceptorState) (value : Int)
    (hq : ¬ promisesCount ((prepPhase accs p.proposalNumber).map Prod.fst) ≤ accs.length / 2) :
    proposerPrepare p accs value =
      Except.ok
        (⟨true, (selectHighest ((prepPhase accs p.proposalNumber).map Prod.fst)).1.getD value,
          p.proposalNumber⟩,
         (accPhase ((prepPhase accs p.proposalNumber).map Prod.snd) p.proposalNumber
           ((selectHighest ((prepPhase accs p.proposalNumber).map Prod.fst)).1.getD value)).map
             Prod.snd,
         { p with proposalNumber := p.proposalNumber + (accs.length : Int) }) := by
  have hge := accepts_ge_promises accs p.proposalNumber
    ((selectHighest ((prepPhase accs p.proposalNumber).map Prod.fst)).1.getD value)
  have hacc2 : 2 * ((accPhase ((prepPhase accs p.proposalNumber).map Prod.snd) p.proposalNumber
      ((selectHighest ((prepPhase accs p.proposalNumber).map Prod.fst)).1.getD value)).filter
        (fun x => x.1)).length > accs.length := by
    omega
  simp [proposerPrepare, hq, hacc2]

/-- C7 (amended): `PaxosProposer.prepare(value)` raises an error exactly when
fewer than a quorum (⌊n/2⌋+1) of the acceptors promise — when a quorum
promises, every promiser also accepts in the same call's Phase 2, so the
accept quorum is reached and no error is raised.  On success the value carried
into the Accept phase (and returned as chosen) is the `acceptedValue` reported
with the highest `acceptedNumber` among the promising responses whose
`acceptedValue` is truthy — Python's `if response.get('accepted_value')` skips
falsy accepted values such as `None` and `0` — and the proposer's own `value`
when there is no such response.  Acceptors are assumed to have nonnegative
accepted proposal numbers whenever they hold an accepted value, as produced by
the nonnegative proposal numbers the proposers use. -/
theorem proposerPrepare_spec (p : ProposerState) (accs : List AcceptorState) (value : Int)
    (hacc : ∀ a ∈ accs, a.acceptedValue.isSome = true → 0 ≤ a.acceptedN) :
    ((∃ e, proposerPrepare p accs value = Except.error e) ↔
      promisesCount ((prepPhase accs p.proposalNumber).map Prod.fst) < accs.length / 2 + 1) ∧
    (∀ res rest, proposerPrepare p accs value = Except.ok (res, rest) →
      ((∀ r ∈ (prepPhase accs p.proposalNumber).map Prod.fst, ¬ qualResp r) →
        res.value = value) ∧
      (∀ r0 ∈ (prepPhase accs p.proposalNumber).map Prod.fst, qualResp r0 →
        ∃ r ∈ (prepPhase accs p.proposalNumber).map Prod.fst, qualResp r ∧
          some res.value = r.acceptedValue ∧
          ∀ r2 ∈ (prepPhase accs p.proposalNumber).map Prod.fst, qualResp r2 →
            r2.acceptedN.getD (-1) ≤ r.acceptedN.getD (-1))) := by
  by_cases hq : promisesCount ((prepPhase accs p.proposalNumber).map Prod.fst) ≤
      accs.length / 2
  · rw [proposerPrepare_err p accs value hq]
    refine ⟨⟨fun _ => by omega, fun _ => ⟨_, rfl⟩⟩, ?_⟩
    intro res rest hok
    exact absurd hok (by simp)
  · rw [proposerPrepare_ok p accs value hq]
    refine ⟨⟨?_, ?_⟩, ?_⟩
    · rintro ⟨e, he⟩
      exact absurd he (by simp)
    · intro hlt
      exact absurd hlt (by omega)
    · intro res rest hok
      have hres : res = ⟨true,
          (selectHighest ((prepPhase accs p.proposalNumber).map Prod.fst)).1.getD value,
          p.proposalNumber⟩ := by
        injection hok with h2
        injection h2 with h3 h4
        exact h3.symm
      have hval : res.value =
          (((prepPhase accs p.proposalNumber).map Prod.fst).foldl selStep (none, -1)).1.getD
            value := by
        rw [hres, ← selectHighest_eq_foldl]
      obtain ⟨hA, hB, hC⟩ :=
        selectHighest_fold ((prepPhase accs p.proposalNumber).map Prod.fst) (none, -1)
      constructor
      · intro hnone
        rcases hA with hA | ⟨r, hr, hqr, -, -, -⟩
        · rw [hval, hA]
          rfl
        · exact absurd hqr (hnone r hr)
      · intro r0 hr0 hq0
        have h0 : 0 ≤ r0.acceptedN.getD (-1) := qualResp_acceptedN_nonneg hacc hr0 hq0
        have hner := hB r0 hr0 hq0
        rcases hA with hA | ⟨r, hr, hqr, hv2, hn2, -⟩
        · exfalso
          have hA2 : (((prepPhase accs p.proposalNumber).map Prod.fst).foldl selStep
              ((none : Option Int), (-1 : Int))).2 = -1 := by
            rw [hA]
          omega
        · refine ⟨r, hr, hqr, ?_, ?_⟩
          · obtain ⟨-, hqr2⟩ := hqr
            rcases hrv : r.acceptedValue with _ | v
            · rw [hrv] at hqr2
              exact absurd hqr2 (by simp [pyTruthy])
            · rw [hval, hv2, hrv]
              rfl
          · intro r2 hr2 hq2
            have := hB r2 hr2 hq2
            omega

def paxosFalsyAcceptors : List AcceptorState :=
  [⟨0, -1, -1, none⟩, ⟨1, -1, 2, some 0⟩, ⟨2, -1, -1, none⟩]

/-- C7 counterexample: all three acceptors promise `prepare(1)`, and acceptor
1 reports the (unique, hence highest-numbered) accepted pair `(2, 0)`; yet,
`0` being falsy for `if response.get('accepted_value')`, the proposer carries
its own value `7` into the Accept phase instead of the reported `0`, and `7`
is chosen. -/
theorem proposerPrepare_skips_falsy_value :
    proposerPrepare ⟨1, 1⟩ paxosFalsyAcceptors 7 =
      Except.ok (⟨true, 7, 1⟩,
        [⟨0, 1, 1, some 7⟩, ⟨1, 1, 1, some 7⟩, ⟨2, 1, 1, some 7⟩], ⟨1, 4⟩) ∧
    (prepPhase paxosFalsyAcceptors 1).map Prod.fst =
      [⟨true, some (-1), none⟩, ⟨true, some 2, some 0⟩, ⟨true, some (-1), none⟩] :=
  ⟨rfl, rfl⟩

def paxosFreshAcceptors : List AcceptorState :=
  [initAcceptor 0, initAcceptor 1, initAcceptor 2]

theorem proposerPrepare_spec_witness : (⟨true, 7, 1⟩ : PaxosResult).value = 7 := by
  have h := proposerPrepare_spec ⟨1, 1⟩ paxosFreshAcceptors 7 (by decide)
  exact (h.2 ⟨true, 7, 1⟩
      ([⟨0, 1, 1, some 7⟩, ⟨1, 1, 1, some 7⟩, ⟨2, 1, 1, some 7⟩], ⟨1, 4⟩) rfl).1 (by decide)

end SDC
